import Mathlib

/-!
Verification development for the PrecisionCRM resume-parsing service.

The Python sources embedded here are
`python-services/resume_parser/contact_mapper.py` (regex field extraction)
and `python-services/resume_parser/main.py` (orchestration: transcript
selection, recursive structured-field search, skills normalization and the
response record).  Text is modelled as `List Char`; Python `None` results
are modelled with `Option`.
-/

namespace PrecisionCRM

/-! ### A small backtracking regular-expression engine

Models the fragment of Python `re` used by the source: character classes,
concatenation, alternation, greedy `?` / `*` / `{m,n}` quantifiers, word
boundaries `\b` and the end anchor `$`.  `enum` returns the list of all
ways the expression can consume a prefix of the remaining input, in the
backtracking preference order of a leftmost, greedy (PCRE-style) matcher;
the head of the list is the match Python's `re` produces.  Character
predicates follow Python's ASCII behaviour on the characters exercised
here (`\s`, `\d`, `\w`). -/

/-- Python `\s` whitespace characters. -/
def isPySpace (c : Char) : Bool :=
  c == ' ' || c == '\t' || c == '\n' || c == '\r' || c == '\x0b' || c == '\x0c'

/-- Python `\w` word characters (ASCII), used for `\b` boundaries. -/
def wordChar (c : Char) : Bool :=
  c.isAlpha || c.isDigit || c == '_'

/-- Regular expressions: the fragment of Python `re` syntax used by the
source files. -/
inductive RE where
  | eps : RE
  | cls (f : Char → Bool) : RE
  | seq (a b : RE) : RE
  | alt (a b : RE) : RE
  | opt (a : RE) : RE
  | star (a : RE) : RE
  | bnd : RE
  | eol : RE

/-- Matcher state: `rev` holds the already-consumed text reversed (so the
character to the left of the cursor is `rev.head?`), `rest` the input that
is still to be consumed. -/
structure Zip where
  rev : List Char
  rest : List Char
deriving DecidableEq, Repr

/-- Is the cursor of `z` at a `\b` word boundary? -/
def atBoundary (z : Zip) : Bool :=
  let l := match z.rev with | [] => false | c :: _ => wordChar c
  let r := match z.rest with | [] => false | c :: _ => wordChar c
  l != r

/-- Is the cursor of `z` at a (non-multiline) `$` anchor: end of input or
just before a final newline? -/
def atEol (z : Zip) : Bool :=
  match z.rest with
  | [] => true
  | [c] => c == '\n'
  | _ => false

/-- Greedy Kleene-star iteration: `f` enumerates one round of the star
body, `n` bounds the number of further rounds, and each round must consume
at least one character (Python's `re` cannot loop on an empty-width star
body either).  Preference order: more rounds first, stopping last. -/
def starIter (f : Zip → List Zip) : Nat → Zip → List Zip
  | 0, z => [z]
  | n + 1, z =>
    (((f z).filter (fun z1 => z1.rest.length < z.rest.length)).flatMap
      (fun z1 => starIter f n z1)) ++ [z]

/-- All ways `r` can match starting at state `z`, as the list of resulting
states, ordered by backtracking preference (head = what Python returns).
A star body can consume at most `z.rest.length` times, so that bound makes
`starIter` exhaustive. -/
def enum : RE → Zip → List Zip
  | .eps, z => [z]
  | .cls f, z =>
    match z.rest with
    | [] => []
    | c :: cs => if f c then [⟨c :: z.rev, cs⟩] else []
  | .seq a b, z => (enum a z).flatMap (fun z1 => enum b z1)
  | .alt a b, z => enum a z ++ enum b z
  | .opt a, z => enum a z ++ [z]
  | .star a, z => starIter (fun z1 => enum a z1) z.rest.length z
  | .bnd, z => if atBoundary z then [z] else []
  | .eol, z => if atEol z then [z] else []

/-- The matcher state at position `p` of `text`. -/
def zipAt (text : List Char) (p : Nat) : Zip :=
  ⟨(text.take p).reverse, text.drop p⟩

/-- Python-`re` match attempt of `r` at position `p` of `text`: the matched
substring, or `none`. -/
def tryAt (r : RE) (text : List Char) (p : Nat) : Option (List Char) :=
  ((enum r (zipAt text p)).head?).map
    (fun z1 => (text.drop p).take ((text.drop p).length - z1.rest.length))

/-- First position in `ps` where `r` matches, with the matched substring. -/
def searchPositions (r : RE) (text : List Char) : List Nat → Option (Nat × List Char)
  | [] => none
  | p :: ps =>
    match tryAt r text p with
    | some m => some (p, m)
    | none => searchPositions r text ps

/-- `re.search`: leftmost match of `r` in `text` (the matched substring). -/
def reSearch (r : RE) (text : List Char) : Option (List Char) :=
  (searchPositions r text (List.range (text.length + 1))).map Prod.snd

/-- Match attempt of `pre · grp · post` at position `p`, returning the text
consumed by `grp` in the overall first (preferred) match: models a Python
pattern with a single capturing group and `match.group(1)`. -/
def tryGroupAt (pre grp post : RE) (text : List Char) (p : Nat) : Option (List Char) :=
  ((enum pre (zipAt text p)).flatMap (fun z1 =>
    (enum grp z1).flatMap (fun z2 =>
      (enum post z2).map (fun _ => z1.rest.take (z1.rest.length - z2.rest.length))))).head?

/-- Helper for `reSearchGroup`: try group-extraction at each position. -/
def searchGroupPositions (pre grp post : RE) (text : List Char) : List Nat → Option (List Char)
  | [] => none
  | p :: ps =>
    match tryGroupAt pre grp post text p with
    | some g => some g
    | none => searchGroupPositions pre grp post text ps

/-- `re.search` for a single-group pattern, returning `match.group(1)`. -/
def reSearchGroup (pre grp post : RE) (text : List Char) : Option (List Char) :=
  searchGroupPositions pre grp post text (List.range (text.length + 1))

/-- `re.match` for a single-group pattern (anchored at position 0),
returning `match.group(1)`. -/
def reMatchGroup (pre grp post : RE) (text : List Char) : Option (List Char) :=
  tryGroupAt pre grp post text 0

/-- All non-overlapping matches of `r` in `text` from position `p` on, in
order: models `re.findall` for group-free patterns. -/
def reFindAllFrom (r : RE) (text : List Char) (fuel : Nat) (p : Nat) : List (List Char) :=
  match fuel with
  | 0 => []
  | fuel + 1 =>
    match searchPositions r text (List.range' p (text.length + 1 - p)) with
    | none => []
    | some (q, m) => m :: reFindAllFrom r text fuel (q + max 1 m.length)

/-- `re.findall` for a pattern without capturing groups. -/
def reFindAll (r : RE) (text : List Char) : List (List Char) :=
  reFindAllFrom r text (text.length + 1) 0

/-! #### Pattern-building helpers (Python syntax sugar) -/

/-- A single literal character. -/
def litc (c : Char) : RE := .cls (fun x => x == c)

/-- A single literal character under `re.IGNORECASE`. -/
def litCI (c : Char) : RE := .cls (fun x => x.toLower == c.toLower)

/-- Sequence of expressions. -/
def seqL : List RE → RE
  | [] => .eps
  | [r] => r
  | r :: rs => .seq r (seqL rs)

/-- Alternation between expressions (empty list never matches). -/
def altL : List RE → RE
  | [] => .cls (fun _ => false)
  | [r] => r
  | r :: rs => .alt r (altL rs)

/-- Literal string. -/
def strOf (s : List Char) : RE := seqL (s.map litc)

/-- Literal string under `re.IGNORECASE`. -/
def strCI (s : List Char) : RE := seqL (s.map litCI)

/-- `r{n}`: exactly `n` copies. -/
def repExact (n : Nat) (r : RE) : RE :=
  match n with
  | 0 => .eps
  | n + 1 => .seq r (repExact n r)

/-- `r{0,n}` greedy: up to `n` copies, preferring more. -/
def repUpTo (n : Nat) (r : RE) : RE :=
  match n with
  | 0 => .eps
  | n + 1 => .opt (.seq r (repUpTo n r))

/-- `r{m,n}` greedy. -/
def repRange (m n : Nat) (r : RE) : RE :=
  .seq (repExact m r) (repUpTo (n - m) r)

/-- `r{m,}` greedy. -/
def repAtLeast (m : Nat) (r : RE) : RE :=
  .seq (repExact m r) (.star r)

/-- `r+` greedy. -/
def plus1 (r : RE) : RE := .seq r (.star r)

/-- Python `\d`. -/
def digitC : RE := .cls Char.isDigit

/-- Python `\s`. -/
def wsC : RE := .cls isPySpace

/-- Character class given by an explicit character list. -/
def oneOf (cs : List Char) : RE := .cls (fun x => cs.contains x)

/-! ### Python string helpers -/

/-- Python `str.strip()` (ASCII whitespace). -/
def stripWs (s : List Char) : List Char :=
  ((s.dropWhile isPySpace).reverse.dropWhile isPySpace).reverse

/-- Python `str.strip(chars)`: remove the given characters from both ends. -/
def stripSet (cs : List Char) (s : List Char) : List Char :=
  ((s.dropWhile (fun c => cs.contains c)).reverse.dropWhile (fun c => cs.contains c)).reverse

/-- Split at every character satisfying `p`, keeping empty pieces: models
`re.split` with a single-character class (no `+`). -/
def splitEvery (p : Char → Bool) : List Char → List (List Char)
  | [] => [[]]
  | c :: cs =>
    if p c then [] :: splitEvery p cs
    else
      match splitEvery p cs with
      | [] => [[c]]
      | w :: ws => (c :: w) :: ws

/-- Fuel-driven worker for `splitRuns` (any fuel at least the length of
the string gives the fuel-free behaviour). -/
def splitRunsF (p : Char → Bool) : Nat → List Char → List (List Char)
  | _, [] => [[]]
  | 0, _ :: _ => [[]]
  | fuel + 1, c :: cs =>
    if p c then [] :: splitRunsF p fuel (cs.dropWhile p)
    else
      match splitRunsF p fuel cs with
      | [] => [[c]]
      | w :: ws => (c :: w) :: ws

/-- Split at every maximal run of characters satisfying `p`, keeping empty
pieces only at the two ends: models `re.split` with a `[...]+` class. -/
def splitRuns (p : Char → Bool) (s : List Char) : List (List Char) :=
  splitRunsF p s.length s

/-- Python `str.split()` (no argument): split on whitespace runs, dropping
empty pieces. -/
def splitWs (s : List Char) : List (List Char) :=
  (splitRuns isPySpace s).filter (fun w => !w.isEmpty)

/-- Python `text.split(String.singleton newline)`: split into lines, keeping
empty pieces. -/
def splitLines (s : List Char) : List (List Char) :=
  splitEvery (fun c => c == '\n') s

/-- Lower-case a string character-wise (ASCII, models `str.lower()`). -/
def lowerL (s : List Char) : List Char := s.map Char.toLower

/-! ### `contact_mapper.py`: regex heuristics (FieldExtractor) -/

/-- `extract_email`'s local-part class `[A-Za-z0-9._%+-]`. -/
def emailLocalC : RE :=
  .cls (fun c => c.isAlpha || c.isDigit || c == '.' || c == '_' || c == '%' || c == '+' || c == '-')

/-- `extract_email`'s domain class `[A-Za-z0-9.-]`. -/
def emailDomC : RE := .cls (fun c => c.isAlpha || c.isDigit || c == '.' || c == '-')

/-- `extract_email`'s top-level-domain class `[A-Z|a-z]` (the source class
literally contains the pipe character). -/
def emailTldC : RE := .cls (fun c => c.isAlpha || c == '|')

/-- The email pattern of `extract_email`. -/
def emailPattern : RE :=
  seqL [.bnd, plus1 emailLocalC, litc '@', plus1 emailDomC, litc '.', repAtLeast 2 emailTldC, .bnd]

/-- `extract_email`: first match of the email pattern, lower-cased. -/
def extract_email (text : List Char) : Option (List Char) :=
  (reSearch emailPattern text).map lowerL

/-- The class `[-\s\.]` used between phone digit groups. -/
def sepDash : RE := .cls (fun c => c == '-' || isPySpace c || c == '.')

/-- The class `[-.]`. -/
def dashDot : RE := oneOf ['-', '.']

/-- Phone pattern 1 after its optional leading plus:
`[(]?[0-9]{1,3}[)]?[-\s\.]?[(]?[0-9]{1,4}[)]?[-\s\.]?[0-9]{1,4}[-\s\.]?[0-9]{1,9}`. -/
def phone1Tail : RE :=
  seqL
    [.opt (litc '('), repRange 1 3 digitC, .opt (litc ')'), .opt sepDash,
     .opt (litc '('), repRange 1 4 digitC, .opt (litc ')'), .opt sepDash,
     repRange 1 4 digitC, .opt sepDash, repRange 1 9 digitC]

/-- Phone pattern 1:
`[\+]?[(]?[0-9]{1,3}[)]?[-\s\.]?[(]?[0-9]{1,4}[)]?[-\s\.]?[0-9]{1,4}[-\s\.]?[0-9]{1,9}`. -/
def phone1 : RE := .seq (.opt (litc '+')) phone1Tail

/-- Phone pattern 2: `\b\d{3}[-.]?\d{3}[-.]?\d{4}\b`. -/
def phone2 : RE :=
  seqL [.bnd, repExact 3 digitC, .opt dashDot, repExact 3 digitC, .opt dashDot,
    repExact 4 digitC, .bnd]

/-- Phone pattern 3: `\(?\d{3}\)?[-.\s]?\d{3}[-.\s]?\d{4}`. -/
def phone3 : RE :=
  seqL [.opt (litc '('), repExact 3 digitC, .opt (litc ')'), .opt sepDash,
    repExact 3 digitC, .opt sepDash, repExact 4 digitC]

/-- Phone pattern 4 after its mandatory leading plus: `\d{1,3}\s?\d{1,14}`. -/
def phone4Tail : RE := seqL [repRange 1 3 digitC, .opt wsC, repRange 1 14 digitC]

/-- Phone pattern 4: `\+\d{1,3}\s?\d{1,14}`. -/
def phone4 : RE := .seq (litc '+') phone4Tail

/-- Phone pattern 5: `\b\d{10,14}\b`. -/
def phone5 : RE := seqL [.bnd, repRange 10 14 digitC, .bnd]

/-- The ordered phone pattern list of `extract_phone`. -/
def phonePatterns : List RE := [phone1, phone2, phone3, phone4, phone5]

/-- The characters kept by `re.sub(non-digit-except-plus, empty, phone)`:
digits and every plus sign. -/
def cleanKeep (c : Char) : Bool := c.isDigit || c == '+'

/-- The pattern loop of `extract_phone`: take the first `findall` match of
each pattern in order; accept it if its cleaned length is at least 10,
otherwise move to the next pattern. -/
def phoneLoop : List RE → List Char → Option (List Char)
  | [], _ => none
  | p :: ps, text =>
    match reSearch p text with
    | some phone =>
      if 10 ≤ (phone.filter cleanKeep).length then some phone else phoneLoop ps text
    | none => phoneLoop ps text

/-- `extract_phone`. -/
def extract_phone (text : List Char) : Option (List Char) :=
  phoneLoop phonePatterns text

/-- An over-approximation of the characters a pattern can consume: `c`
satisfies some character class occurring in `r`. -/
def charOK : RE → Char → Bool
  | .eps, _ => false
  | .cls f, c => f c
  | .seq a b, c => charOK a c || charOK b c
  | .alt a b, c => charOK a c || charOK b c
  | .opt a, c => charOK a c
  | .star a, c => charOK a c
  | .bnd, _ => false
  | .eol, _ => false

/-- The digit count of claim C5: the number of digit characters, with at
most a leading plus sign exempted from being ignored (counted along with
the digits). -/
def claimDigitCount : List Char → Nat
  | [] => 0
  | c :: cs => ((c :: cs).filter Char.isDigit).length + (if c = '+' then 1 else 0)

/-- `[A-Z]`. -/
def upperC : RE := .cls (fun c => 'A' ≤ c && c ≤ 'Z')

/-- `[a-z]`. -/
def lowerC : RE := .cls (fun c => 'a' ≤ c && c ≤ 'z')

/-- `[A-Z][a-z]+`: one capitalized word. -/
def nameWord : RE := .seq upperC (plus1 lowerC)

/-- `[A-Z][a-z]+(?:\s+[A-Z][a-z]+){1,3}`: 2 to 4 capitalized words. -/
def nameSeq : RE := .seq nameWord (repRange 1 3 (.seq (plus1 wsC) nameWord))

/-- The three name line patterns of `extract_name`, as
(prefix, capturing group, suffix) triples; `re.match` anchors them at the
line start, so the leading `^` needs no explicit representation. -/
def namePatterns : List (RE × RE × RE) :=
  [(.eps, nameSeq, .eol),
   (.eps, seqL [nameWord, plus1 wsC, upperC, litc '.', plus1 wsC, nameWord], .eol),
   (.seq (.opt (altL [strOf "Mr.".toList, strOf "Ms.".toList, strOf "Mrs.".toList,
      strOf "Dr.".toList, strOf "Prof.".toList])) (.star wsC), nameSeq, .eps)]

/-- The characters of the skip class
`[\d@#$%^&*()_+=\[\]{}|\\:";\x27<>?,/]` in `extract_name`. -/
def isBadNameChar (c : Char) : Bool :=
  c.isDigit ||
    ['@', '#', '$', '%', '^', '&', '*', '(', ')', '_', '+', '=', '[', ']',
     '{', '}', '|', '\\', ':', '"', ';', Char.ofNat 39, '<', '>', '?', ',', '/'].contains c

/-- The inner pattern loop of `extract_name`: first pattern that matches
the line with a 2-to-4-word group wins. -/
def nameLineLoop : List (RE × RE × RE) → List Char → Option (List Char)
  | [], _ => none
  | (pre, grp, post) :: rest, line =>
    match reMatchGroup pre grp post line with
    | some name =>
      let words := splitWs name
      if 2 ≤ words.length && words.length ≤ 4 then some (stripWs name)
      else nameLineLoop rest line
    | none => nameLineLoop rest line

/-- The line loop of `extract_name` over the first 10 lines. -/
def nameFromLines : List (List Char) → Option (List Char)
  | [] => none
  | l :: ls =>
    let line := stripWs l
    if 50 < line.length || line.length < 3 then nameFromLines ls
    else if line.any isBadNameChar then nameFromLines ls
    else
      match nameLineLoop namePatterns line with
      | some n => some n
      | none => nameFromLines ls

/-- The labeled name headers of `extract_name`. -/
def nameHeaders : List (List Char) :=
  ["Name:".toList, "Full Name:".toList, "Candidate Name:".toList, "Applicant:".toList]

/-- `[A-Za-z\s]`. -/
def alphaSpC : RE := .cls (fun c => c.isAlpha || isPySpace c)

/-- The header fallback loop of `extract_name`: search
`header\s*([A-Za-z\s]+)` case-insensitively; accept a 2-to-4-word group. -/
def nameHeaderLoop : List (List Char) → List Char → Option (List Char)
  | [], _ => none
  | h :: hs, text =>
    match reSearchGroup (.seq (strCI h) (.star wsC)) (plus1 alphaSpC) .eps text with
    | some g =>
      let name := stripWs g
      if 2 ≤ (splitWs name).length && (splitWs name).length ≤ 4 then some name
      else nameHeaderLoop hs text
    | none => nameHeaderLoop hs text

/-- `extract_name`. -/
def extract_name (text : List Char) : Option (List Char) :=
  match nameFromLines ((splitLines text).take 10) with
  | some n => some n
  | none => nameHeaderLoop nameHeaders text

/-- The labeled location headers of `extract_address`. -/
def locationHeaders : List (List Char) :=
  ["Address:".toList, "Location:".toList, "City:".toList, "Residence:".toList,
   "Lives in:".toList, "Based in:".toList]

/-- `[^\n]`. -/
def notNl : RE := .cls (fun c => !(c == '\n'))

/-- The location-header loop of `extract_address`: search
`header\s*([^\n]+)` case-insensitively; accept a non-empty group of fewer
than 100 characters. -/
def addrHeaderLoop : List (List Char) → List Char → Option (List Char)
  | [], _ => none
  | h :: hs, text =>
    match reSearchGroup (.seq (strCI h) (.star wsC)) (plus1 notNl) .eps text with
    | some g =>
      let location := stripWs g
      if !location.isEmpty && location.length < 100 then some location
      else addrHeaderLoop hs text
    | none => addrHeaderLoop hs text

/-- The street suffix alternation of address pattern 3. -/
def streetSuffixes : List (List Char) :=
  ["Street".toList, "St".toList, "Avenue".toList, "Ave".toList, "Road".toList,
   "Rd".toList, "Boulevard".toList, "Blvd".toList, "Lane".toList, "Ln".toList,
   "Drive".toList, "Dr".toList, "Court".toList, "Ct".toList, "Place".toList,
   "Pl".toList, "Circle".toList, "Cir".toList]

/-- The three general address patterns, as (prefix, group, suffix): the
capturing group sits between two zero-width `\b` anchors, so
`re.findall`'s group-1 results coincide with the matched text. -/
def addressPatterns : List (RE × RE × RE) :=
  [(.bnd, seqL [plus1 alphaSpC, litc ',', .star wsC, repExact 2 upperC, plus1 wsC,
      repExact 5 digitC, .opt (.seq (litc '-') (repExact 4 digitC))], .bnd),
   (.bnd, seqL [plus1 alphaSpC, litc ',', .star wsC, repExact 2 upperC], .bnd),
   (.bnd, seqL [plus1 digitC, plus1 wsC, plus1 alphaSpC,
      altL (streetSuffixes.map strOf), .opt (litc '.')], .bnd)]

/-- The general-pattern loop of `extract_address`: return the group of the
first match of the first pattern that matches anywhere. -/
def addrPatternLoop : List (RE × RE × RE) → List Char → Option (List Char)
  | [], _ => none
  | (pre, grp, post) :: rest, text =>
    match reSearchGroup pre grp post text with
    | some g => some g
    | none => addrPatternLoop rest text

/-- The 50 U.S. state abbreviations of `extract_address`. -/
def stateAbbrevs : List (List Char) :=
  ["AL".toList, "AK".toList, "AZ".toList, "AR".toList, "CA".toList, "CO".toList,
   "CT".toList, "DE".toList, "FL".toList, "GA".toList, "HI".toList, "ID".toList,
   "IL".toList, "IN".toList, "IA".toList, "KS".toList, "KY".toList, "LA".toList,
   "ME".toList, "MD".toList, "MA".toList, "MI".toList, "MN".toList, "MS".toList,
   "MO".toList, "MT".toList, "NE".toList, "NV".toList, "NH".toList, "NJ".toList,
   "NM".toList, "NY".toList, "NC".toList, "ND".toList, "OH".toList, "OK".toList,
   "OR".toList, "PA".toList, "RI".toList, "SC".toList, "SD".toList, "TN".toList,
   "TX".toList, "UT".toList, "VT".toList, "VA".toList, "WA".toList, "WV".toList,
   "WI".toList, "WY".toList]

/-- `\b(?:AL|AK|...)\b`: the state abbreviation pattern. -/
def statePattern : RE := seqL [.bnd, altL (stateAbbrevs.map strOf), .bnd]

/-- The state loop of `extract_address`: for each state-abbreviation match
in order, search `([A-Za-z\s]+),?\s*STATE` and return the whole match
stripped. -/
def stateLoop : List (List Char) → List Char → Option (List Char)
  | [], _ => none
  | st :: sts, text =>
    match reSearch (seqL [plus1 alphaSpC, .opt (litc ','), .star wsC, strOf st]) text with
    | some m => some (stripWs m)
    | none => stateLoop sts text

/-- `extract_address`. -/
def extract_address (text : List Char) : Option (List Char) :=
  match addrHeaderLoop locationHeaders text with
  | some l => some l
  | none =>
    match addrPatternLoop addressPatterns text with
    | some a => some a
    | none => stateLoop (reFindAll statePattern text) text

/-- `[A-Za-z0-9\-_]`. -/
def linkIdC : RE := .cls (fun c => c.isAlpha || c.isDigit || c == '-' || c == '_')

/-- `(?:https?://)?`. -/
def schemeOpt : RE := .opt (seqL [strCI "http".toList, .opt (litCI 's'), strCI "://".toList])

/-- `(?:www\.)?`. -/
def wwwOpt : RE := .opt (strCI "www.".toList)

/-- `linkedin\.com/in/[A-Za-z0-9\-_]+/?`. -/
def linkCore : RE := seqL [strCI "linkedin.com/in/".toList, plus1 linkIdC, .opt (litc '/')]

/-- The three LinkedIn patterns of `extract_linkedin` (all searched with
`re.IGNORECASE`). -/
def linkedinPatterns : List RE :=
  [seqL [schemeOpt, wwwOpt, linkCore],
   linkCore,
   seqL [strCI "linkedin".toList, .star wsC, litc ':', .star wsC, schemeOpt, wwwOpt, linkCore]]

/-- The pattern loop of `extract_linkedin`: first match wins; a match not
starting with `http` gets `https://` prepended. -/
def linkedinLoop : List RE → List Char → Option (List Char)
  | [], _ => none
  | p :: ps, text =>
    match reSearch p text with
    | some url =>
      some (if "http".toList.isPrefixOf url then url else "https://".toList ++ url)
    | none => linkedinLoop ps text

/-- `extract_linkedin`. -/
def extract_linkedin (text : List Char) : Option (List Char) :=
  linkedinLoop linkedinPatterns text

/-- The skill section headers of `extract_skills`, in priority order. -/
def skillHeaders : List (List Char) :=
  ["Skills:".toList, "Technical Skills:".toList, "Core Competencies:".toList,
   "Expertise:".toList, "Technologies:".toList, "Programming Languages:".toList]

/-- `[^\n]+(?:\n[^\n]+)*`: the skill-section body (consecutive non-empty
lines). -/
def skillGrp : RE := .seq (plus1 notNl) (.star (.seq (litc '\n') (plus1 notNl)))

/-- The header loop of `extract_skills`: the first header whose pattern
`header\s*([^\n]+(?:\n[^\n]+)*)` matches (case-insensitively) provides the
skill text; the loop breaks there. -/
def findSkillText : List (List Char) → List Char → Option (List Char)
  | [], _ => none
  | h :: hs, text =>
    match reSearchGroup (.seq (strCI h) (.star wsC)) skillGrp .eps text with
    | some g => some g
    | none => findSkillText hs text

/-- The split class `[,;|\n•·]` of `extract_skills`. -/
def skillDelim (c : Char) : Bool :=
  c == ',' || c == ';' || c == '|' || c == '\n' || c == '•' || c == '·'

/-- Case-insensitive order-preserving deduplication (the `seen` set loop of
`extract_skills`). -/
def dedupCIAux (seen : List (List Char)) : List (List Char) → List (List Char)
  | [] => []
  | s :: ss =>
    if seen.contains (lowerL s) then dedupCIAux seen ss
    else s :: dedupCIAux (lowerL s :: seen) ss

/-- Case-insensitive order-preserving deduplication, empty `seen` set. -/
def dedupCI (skills : List (List Char)) : List (List Char) := dedupCIAux [] skills

/-- `extract_skills`. -/
def extract_skills (text : List Char) : List (List Char) :=
  let skills :=
    match findSkillText skillHeaders text with
    | some skillText =>
      ((splitEvery skillDelim skillText).map (fun item => stripWs (stripSet [' ', '-'] item))).filter
        (fun skill => !skill.isEmpty && skill.length < 50 && 1 < skill.length)
    | none => []
  (dedupCI skills).take 20

/-- The contact record assembled by `extract_contact_info` (the Python
dict with keys `full_name`, `email`, `phone`, `address`, `linkedin`,
`skills`). -/
structure ContactInfo where
  full_name : Option (List Char)
  email : Option (List Char)
  phone : Option (List Char)
  address : Option (List Char)
  linkedin : Option (List Char)
  skills : List (List Char)
deriving DecidableEq, Repr

/-- `extract_contact_info`: assemble all six extractors. -/
def extract_contact_info (text : List Char) : ContactInfo :=
  { full_name := extract_name text
    email := extract_email text
    phone := extract_phone text
    address := extract_address text
    linkedin := extract_linkedin text
    skills := extract_skills text }

/-! ### `main.py`: deserialized structured responses

A structured source (the deserialized JSON returned by the external
parsing service) is an acyclic tree of mappings, sequences and scalars. -/

/-- A deserialized JSON-like Python value. -/
inductive Value where
  | null : Value
  | str (s : List Char) : Value
  | num (n : Int) : Value
  | bool (b : Bool) : Value
  | list (xs : List Value) : Value
  | dict (kvs : List (String × Value)) : Value

namespace Value

/-- Python truthiness of a value (`if obj:`). -/
def truthy : Value → Bool
  | .null => false
  | .str s => !s.isEmpty
  | .num n => n != 0
  | .bool b => b
  | .list xs => !xs.isEmpty
  | .dict kvs => !kvs.isEmpty

/-- `isinstance(obj, dict)`. -/
def isDict : Value → Bool
  | .dict _ => true
  | _ => false

end Value

/-- Python `d.get(key)` on an association list (keys are unique in a
deserialized JSON object; the first binding wins). -/
def lookupKey (kvs : List (String × Value)) (k : String) : Option Value :=
  match kvs with
  | [] => none
  | (k1, v) :: rest => if k1 = k then some v else lookupKey rest k

/-- `main.py`'s fixed list of well-known container keys. -/
def containerKeys : List String :=
  ["data", "parsed", "parsed_resume", "personal", "contact", "personal_details",
   "attributes", "profile"]

/-- The direct-alias phase of `_recursive_search` at a mapping node:
`for key in candidate_keys: if key in obj and obj[key]: return obj[key]`. -/
def findAlias (kvs : List (String × Value)) : List String → Option Value
  | [] => none
  | k :: ks =>
    match lookupKey kvs k with
    | some v => if v.truthy then some v else findAlias kvs ks
    | none => findAlias kvs ks

/-- The container phase of `_recursive_search`: for each well-known
container key holding a nested mapping, run the direct-alias phase one
level in. -/
def findInContainers (kvs : List (String × Value)) (keys : List String) :
    List String → Option Value
  | [] => none
  | c :: cs =>
    match lookupKey kvs c with
    | some (.dict inner) =>
      match findAlias inner keys with
      | some v => some v
      | none => findInContainers kvs keys cs
    | _ => findInContainers kvs keys cs

mutual

/-- `_recursive_search(obj, candidate_keys)` from `main.py`: direct alias
hits first, then alias hits inside well-known container keys, then a
depth-first recursion over all child values; sequences recurse over their
elements; scalars yield `None`. -/
def recursiveSearch (obj : Value) (keys : List String) : Option Value :=
  match obj with
  | .dict kvs =>
    match findAlias kvs keys with
    | some v => some v
    | none =>
      match findInContainers kvs keys containerKeys with
      | some v => some v
      | none => searchKVs kvs keys
  | .list xs => searchList xs keys
  | _ => none

/-- `for v in obj.values(): res = _recursive_search(v, ...); if res: return res`. -/
def searchKVs (kvs : List (String × Value)) (keys : List String) : Option Value :=
  match kvs with
  | [] => none
  | (_, v) :: rest =>
    match recursiveSearch v keys with
    | some r => if r.truthy then some r else searchKVs rest keys
    | none => searchKVs rest keys

/-- `for item in obj: res = _recursive_search(item, ...); if res: return res`. -/
def searchList (xs : List Value) (keys : List String) : Option Value :=
  match xs with
  | [] => none
  | v :: rest =>
    match recursiveSearch v keys with
    | some r => if r.truthy then some r else searchList rest keys
    | none => searchList rest keys

end

/-- Interleave `sep` between the pieces (`", ".join(...)`). -/
def joinSep : List (List Char) → List Char → List Char
  | [], _ => []
  | [x], _ => x
  | x :: xs, sep => x ++ sep ++ joinSep xs sep

/-- Decimal digits of `n`, most significant first (`fuel` bounds the
number of digits; any fuel above `n` suffices). -/
def natReprAux : Nat → Nat → List Char
  | 0, _ => []
  | fuel + 1, n =>
    if n < 10 then [Nat.digitChar n]
    else natReprAux fuel (n / 10) ++ [Nat.digitChar (n % 10)]

/-- Decimal representation of a natural number. -/
def natRepr (n : Nat) : List Char := natReprAux (n + 1) n

/-- Python `str(i)` for an integer. -/
def intRepr (i : Int) : List Char :=
  if i < 0 then '-' :: natRepr i.natAbs else natRepr i.natAbs

/-- Python `str(x)` for the values a structured response can hold
(containers are rendered with their `repr`, modelled to the extent needed
here). -/
def pyStr : Value → List Char
  | .null => "None".toList
  | .str s => s
  | .num n => intRepr n
  | .bool b => if b then "True".toList else "False".toList
  | .list xs => '[' :: (joinSep (xs.attach.map (fun v => pyStr v.1)) ", ".toList) ++ [']']
  | .dict kvs =>
    Char.ofNat 123 ::
      (joinSep (kvs.attach.map (fun kv => (toString kv.1.1).toList ++ ": ".toList ++ pyStr kv.1.2))
        ", ".toList) ++ [Char.ofNat 125]
termination_by v => sizeOf v
decreasing_by
  · have := List.sizeOf_lt_of_mem v.2
    simp only [Value.list.sizeOf_spec]
    omega
  · obtain ⟨⟨a, b⟩, hm⟩ := kv
    have := List.sizeOf_lt_of_mem hm
    simp only [Value.dict.sizeOf_spec, Prod.mk.sizeOf_spec] at *
    omega

/-- The character classes split on by `_normalize_skills`: the raw-string
pattern `[;,|\x5c\x5cn]+` is, to the regex engine, the class containing
semicolon, comma, pipe, a literal backslash and the literal letter `n`
(not the newline character). -/
def normDelim (c : Char) : Bool :=
  c == ';' || c == ',' || c == '|' || c == '\\' || c == 'n'

/-- `_normalize_skills(raw)` from `main.py`. -/
def normalizeSkills : Value → List (List Char)
  | .null => []
  | .list xs => xs.map pyStr
  | .str s => ((splitRuns normDelim s).map stripWs).filter (fun t => !t.isEmpty)
  | other => [pyStr other]

/-- `x or None`: a falsy value is replaced by `None` (modelled `Value.null`). -/
def orNull (o : Option Value) : Value :=
  match o with
  | some v => if v.truthy then v else .null
  | none => .null

/-- `_recursive_search(...) or []`. -/
def orEmptyList (o : Option Value) : Value :=
  match o with
  | some v => if v.truthy then v else .list []
  | none => .list []

/-- The field-by-field structured lookup of `parse_resume` (`main.py`
lines building `contact_info` from the structured response). -/
def structuredLookup (v : Value) : List (String × Value) :=
  [("full_name", orNull (recursiveSearch v
      ["name", "full_name", "given_name", "first_name", "formatted_name"])),
   ("email", orNull (recursiveSearch v ["email", "emails"])),
   ("phone", orNull (recursiveSearch v ["phone", "phones", "mobile"])),
   ("address", orNull (recursiveSearch v ["address", "location", "locations", "addresses"])),
   ("linkedin", orNull (recursiveSearch v
      ["linkedin", "linkedin_url", "linkedin_profile", "profile_url"])),
   ("skills", .list ((normalizeSkills (orEmptyList (recursiveSearch v
      ["skills", "skill", "keywords", "expertise"]))).map .str))]

/-- The `extract_contact_info` result as the Python dict it is
(`{'full_name': ..., ..., 'skills': [...]}`), with `None` for absent
fields. -/
def contactDict (ci : ContactInfo) : List (String × Value) :=
  [("full_name", match ci.full_name with | some s => .str s | none => .null),
   ("email", match ci.email with | some s => .str s | none => .null),
   ("phone", match ci.phone with | some s => .str s | none => .null),
   ("address", match ci.address with | some s => .str s | none => .null),
   ("linkedin", match ci.linkedin with | some s => .str s | none => .null),
   ("skills", .list (ci.skills.map .str))]

/-- `contact_info` before the fallback check: the structured lookup when
the structured response is a truthy mapping, the empty dict otherwise. -/
def ciOf (affinda : Option Value) : List (String × Value) :=
  match affinda with
  | some v => if v.truthy && v.isDict then structuredLookup v else []
  | none => []

/-- The contact-extraction step of `parse_resume`: structured lookup if
the structured response is a truthy mapping; if no looked-up field is
truthy (`if not any(contact_info.values())`), the whole attempt is
replaced by `extract_contact_info(extracted_text)`. -/
def parseContact (affinda : Option Value) (text : List Char) : List (String × Value) :=
  let ci := ciOf affinda
  if ci.any (fun kv => kv.2.truthy) then ci
  else contactDict (extract_contact_info text)

/-- `contact_info.get(k) or ''`. -/
def getOrEmptyStr (ci : List (String × Value)) (k : String) : Value :=
  match lookupKey ci k with
  | some v => if v.truthy then v else .str []
  | none => .str []

/-- `contact_info.get('skills') or []`. -/
def getOrEmptyList (ci : List (String × Value)) (k : String) : Value :=
  match lookupKey ci k with
  | some v => if v.truthy then v else .list []
  | none => .list []

/-- The response dict literal of `parse_resume` (`main.py`): the flat
record returned on success, in key order. -/
def buildResponse (ci : List (String × Value)) (filePath fileType text : List Char) :
    List (String × Value) :=
  [("success", .bool true),
   ("file_path", .str filePath),
   ("file_type", .str fileType),
   ("text", .str text),
   ("name", getOrEmptyStr ci "full_name"),
   ("email", getOrEmptyStr ci "email"),
   ("phone", getOrEmptyStr ci "phone"),
   ("address", getOrEmptyStr ci "address"),
   ("linkedin", getOrEmptyStr ci "linkedin"),
   ("skills", getOrEmptyList ci "skills"),
   ("text_length", .num text.length)]

/-- The JSON quoting of a string by `json.dumps`. -/
def jsonQuote (s : List Char) : List Char :=
  '"' :: (s.flatMap (fun c => if c == '"' || c == '\\' then ['\\', c] else [c])) ++ ['"']

/-- `json.dumps` on a deserialized value (string escaping modelled for the
quote and backslash; enough to be a faithful, always-non-empty
serializer). -/
def jsonDumps : Value → List Char
  | .null => "null".toList
  | .str s => jsonQuote s
  | .num n => intRepr n
  | .bool b => if b then "true".toList else "false".toList
  | .list xs => '[' :: (joinSep (xs.attach.map (fun v => jsonDumps v.1)) ", ".toList) ++ [']']
  | .dict kvs =>
    Char.ofNat 123 ::
      (joinSep
        (kvs.attach.map (fun kv => jsonQuote kv.1.1.toList ++ ": ".toList ++ jsonDumps kv.1.2))
        ", ".toList) ++ [Char.ofNat 125]
termination_by v => sizeOf v
decreasing_by
  · have := List.sizeOf_lt_of_mem v.2
    simp only [Value.list.sizeOf_spec]
    omega
  · obtain ⟨⟨a, b⟩, hm⟩ := kv
    have := List.sizeOf_lt_of_mem hm
    simp only [Value.dict.sizeOf_spec, Prod.mk.sizeOf_spec] at *
    omega

/-- The transcript-selection logic of `parse_resume` (`main.py`): when the
structured call succeeded (`affinda = some (response, transcript)`), a
truthy transcript is used, otherwise the JSON serialization of the
response; only when no text was produced at all (no structured call, or it
raised) does the locally extracted document text take over. -/
def selectTranscript (affinda : Option (Value × List Char)) (docText : List Char) :
    List Char :=
  let extractedText :=
    match affinda with
    | some (resp, t) => if !t.isEmpty then t else jsonDumps resp
    | none => []
  if extractedText.isEmpty then docText else extractedText

/-! ### A graph model of `_recursive_search` for cyclic inputs

The inductive `Value` type cannot express the self-referential structures
claim C7 is about, so the search is replayed on an explicit object graph:
nodes are addressed by natural numbers and a mapping/sequence stores the
addresses of its children, which allows cycles.  `searchG` is the same
algorithm as `recursiveSearch`, with an explicit recursion budget: an
outer `none` means the budget was exhausted, so an input on which every
budget is exhausted is an input on which the Python recursion never
returns (it recurses without bound). -/

/-- The content of one graph node. -/
inductive GContent where
  | scalar (truthy : Bool) : GContent
  | arr (elems : List Nat) : GContent
  | obj (kvs : List (String × Nat)) : GContent
deriving DecidableEq, Repr

/-- An object graph: the content at each address. -/
def Graph : Type := Nat → GContent

/-- Truthiness of the value at address `n` (shallow, as in Python). -/
def truthyN (g : Graph) (n : Nat) : Bool :=
  match g n with
  | .scalar b => b
  | .arr l => !l.isEmpty
  | .obj kvs => !kvs.isEmpty

/-- Association lookup on string keys with node addresses. -/
def lookupKeyN (kvs : List (String × Nat)) (k : String) : Option Nat :=
  match kvs with
  | [] => none
  | (k1, v) :: rest => if k1 = k then some v else lookupKeyN rest k

/-- The direct-alias phase at a mapping node of the graph. -/
def findAliasN (g : Graph) (kvs : List (String × Nat)) : List String → Option Nat
  | [] => none
  | k :: ks =>
    match lookupKeyN kvs k with
    | some m => if truthyN g m then some m else findAliasN g kvs ks
    | none => findAliasN g kvs ks

/-- The container phase at a mapping node of the graph. -/
def findInContainersN (g : Graph) (kvs : List (String × Nat)) (keys : List String) :
    List String → Option Nat
  | [] => none
  | c :: cs =>
    match lookupKeyN kvs c with
    | some m =>
      match g m with
      | .obj inner =>
        match findAliasN g inner keys with
        | some r => some r
        | none => findInContainersN g kvs keys cs
      | _ => findInContainersN g kvs keys cs
    | none => findInContainersN g kvs keys cs

/-- The child addresses a node recurses into. -/
def childRefs : GContent → List Nat
  | .scalar _ => []
  | .arr l => l
  | .obj kvs => kvs.map Prod.snd

/-- The loop over child nodes (`for v in ...: res = _recursive_search(v)`),
with `f` the recursive call at one budget less; budget exhaustion in any
child propagates. -/
def goChildren (g : Graph) (f : Nat → Option (Option Nat)) : List Nat → Option (Option Nat)
  | [] => some none
  | m :: ms =>
    match f m with
    | none => none
    | some (some r) => if truthyN g r then some (some r) else goChildren g f ms
    | some none => goChildren g f ms

/-- `_recursive_search` on the object graph, with recursion budget `fuel`:
`none` = budget exhausted, `some none` = Python returns `None`,
`some (some m)` = Python returns the value at address `m`. -/
def searchG (g : Graph) (keys : List String) : Nat → Nat → Option (Option Nat)
  | 0, _ => none
  | fuel + 1, n =>
    match g n with
    | .scalar _ => some none
    | .arr l => goChildren g (fun m => searchG g keys fuel m) l
    | .obj kvs =>
      match findAliasN g kvs keys with
      | some m => some (some m)
      | none =>
        match findInContainersN g kvs keys containerKeys with
        | some m => some (some m)
        | none => goChildren g (fun m => searchG g keys fuel m) (childRefs (.obj kvs))

/-- The one-node self-referential mapping `obj = {"a": obj}` (every
address holds the same mapping, whose single value points back to it). -/
def cycGraph : Graph := fun _ => .obj [("a", 0)]

/-- A two-node acyclic graph: the root is `{"email": <truthy scalar>}`,
every other address a truthy scalar. -/
def treeGraph : Graph := fun n =>
  match n with
  | 0 => .obj [("email", 1)]
  | _ => .scalar true

/-- A rank function for `treeGraph` that strictly decreases along edges. -/
def treeRank : Nat → Nat := fun n =>
  match n with
  | 0 => 1
  | _ => 0

/-- The value found for key `k` by a Python dict lookup, if truthy:
whether a non-empty value sits directly under `k` at this mapping node. -/
def keyTruthy (kvs : List (String × Value)) (k : String) : Bool :=
  match lookupKey kvs k with
  | some v => v.truthy
  | none => false

/-- Whether a non-empty value sits directly under one of the alias keys
at this mapping node. -/
def hasDirectHit (keys : List String) (kvs : List (String × Value)) : Bool :=
  keys.any (keyTruthy kvs)

mutual

/-- The specification-shaped hit predicate for claim C8: a non-empty
value sits under one of the alias keys somewhere in the structure —
directly at this mapping node, or anywhere below a mapping value or
sequence element. -/
def hasAliasHit (keys : List String) : Value → Bool
  | .dict kvs => hasDirectHit keys kvs || anyHitKVs keys kvs
  | .list xs => anyHitList keys xs
  | _ => false

/-- Some mapping value contains an alias hit. -/
def anyHitKVs (keys : List String) : List (String × Value) → Bool
  | [] => false
  | (_, v) :: rest => hasAliasHit keys v || anyHitKVs keys rest

/-- Some sequence element contains an alias hit. -/
def anyHitList (keys : List String) : List Value → Bool
  | [] => false
  | v :: rest => hasAliasHit keys v || anyHitList keys rest

end

/-! ## Helper lemmas -/

/-- Membership in the deduplicated list implies membership in the input. -/
theorem mem_of_mem_dedupCIAux {s : List Char} :
    ∀ (l : List (List Char)) (seen : List (List Char)), s ∈ dedupCIAux seen l → s ∈ l := by
  intro l
  induction l with
  | nil => intro seen h; simp [dedupCIAux] at h
  | cons x xs ih =>
    intro seen h
    rw [dedupCIAux] at h
    by_cases hc : seen.contains (lowerL x)
    · simp only [hc, if_true] at h
      exact List.mem_cons_of_mem x (ih seen h)
    · simp only [hc, if_false] at h
      rcases List.mem_cons.mp h with h1 | h2
      · exact h1 ▸ List.mem_cons_self x xs
      · exact List.mem_cons_of_mem x (ih _ h2)

/-- The deduplicated list is pairwise distinct under `lowerL` and avoids
the `seen` set. -/
theorem dedupCIAux_pairwise :
    ∀ (l : List (List Char)) (seen : List (List Char)),
      (dedupCIAux seen l).Pairwise (fun a b => lowerL a ≠ lowerL b) ∧
      ∀ s ∈ dedupCIAux seen l, lowerL s ∉ seen := by
  intro l
  induction l with
  | nil => intro seen; simp [dedupCIAux]
  | cons x xs ih =>
    intro seen
    rw [dedupCIAux]
    by_cases hc : lowerL x ∈ seen
    · have hcb : seen.contains (lowerL x) = true := by simpa using hc
      simp only [hcb, if_true]
      exact ih seen
    · have hcb : seen.contains (lowerL x) = false := by simpa using hc
      simp only [hcb, Bool.false_eq_true, if_false]
      obtain ⟨hpair, hseen⟩ := ih (lowerL x :: seen)
      have hseen' : ∀ s ∈ dedupCIAux (lowerL x :: seen) xs,
          lowerL s ≠ lowerL x ∧ lowerL s ∉ seen := by
        intro s hs
        have := hseen s hs
        simp only [List.mem_cons, not_or] at this
        exact this
      refine ⟨List.pairwise_cons.mpr ⟨fun b hb => ((hseen' b hb).1).symm, hpair⟩, ?_⟩
      intro s hs
      rcases List.mem_cons.mp hs with h1 | h2
      · subst h1; exact hc
      · exact (hseen' s h2).2

/-- Every member of `extract_skills text` passed the token filter of the
source: non-empty, shorter than 50 characters, and longer than one. -/
theorem extract_skills_mem_filter {text s : List Char} (h : s ∈ extract_skills text) :
    (!s.isEmpty && s.length < 50 && 1 < s.length) = true := by
  unfold extract_skills at h
  have h1 := List.mem_of_mem_take h
  have h2 := mem_of_mem_dedupCIAux _ _ h1
  cases hf : findSkillText skillHeaders text with
  | none => rw [hf] at h2; simp at h2
  | some st =>
    rw [hf] at h2
    exact (List.mem_filter.mp h2).2

/-- Decimal representations are never empty. -/
theorem natRepr_ne_nil (n : Nat) : natRepr n ≠ [] := by
  unfold natRepr natReprAux
  split
  · simp
  · simp

/-- `json.dumps` never returns the empty string. -/
theorem jsonDumps_ne_nil (v : Value) : jsonDumps v ≠ [] := by
  cases v with
  | null => simp [jsonDumps]
  | str s => simp [jsonDumps, jsonQuote]
  | num n =>
    simp only [jsonDumps, intRepr]
    split
    · simp
    · exact natRepr_ne_nil _
  | bool b => cases b <;> simp [jsonDumps]
  | list xs => simp [jsonDumps]
  | dict kvs => simp [jsonDumps]

/-- `json.dumps` output is never empty, `isEmpty` form. -/
theorem jsonDumps_isEmpty_false (v : Value) : (jsonDumps v).isEmpty = false := by
  cases hj : (jsonDumps v).isEmpty
  · rfl
  · exact absurd (List.isEmpty_iff.mp hj) (jsonDumps_ne_nil v)

/-- The direct-alias phase succeeds exactly when a truthy value sits
directly under some alias key. -/
theorem findAlias_isSome (kvs : List (String × Value)) :
    ∀ keys, (findAlias kvs keys).isSome = hasDirectHit keys kvs := by
  intro keys
  induction keys with
  | nil => simp [findAlias, hasDirectHit]
  | cons k ks ih =>
    rw [findAlias]
    cases hl : lookupKey kvs k with
    | none => simp [hasDirectHit, keyTruthy, hl] at ih ⊢; exact ih
    | some v =>
      cases ht : v.truthy with
      | true => simp [hasDirectHit, keyTruthy, hl, ht]
      | false => simp [hasDirectHit, keyTruthy, hl, ht] at ih ⊢; exact ih

/-- The direct-alias phase only returns truthy values. -/
theorem findAlias_truthy {kvs : List (String × Value)} {v : Value} :
    ∀ {keys}, findAlias kvs keys = some v → v.truthy = true := by
  intro keys
  induction keys with
  | nil => intro h; simp [findAlias] at h
  | cons k ks ih =>
    intro h
    rw [findAlias] at h
    cases hl : lookupKey kvs k with
    | none => simp only [hl] at h; exact ih h
    | some w =>
      simp only [hl] at h
      cases ht : w.truthy with
      | true =>
        simp only [ht, if_true] at h
        obtain rfl := Option.some_inj.mp h
        exact ht
      | false =>
        simp [ht] at h
        exact ih h

/-- A looked-up value is among the mapping's values. -/
theorem lookupKey_mem_snd {kvs : List (String × Value)} {k : String} {v : Value} :
    lookupKey kvs k = some v → v ∈ kvs.map Prod.snd := by
  induction kvs with
  | nil => intro h; simp [lookupKey] at h
  | cons kv rest ih =>
    intro h
    rw [lookupKey] at h
    by_cases he : kv.1 = k
    · simp only [he, if_true] at h
      obtain rfl := Option.some_inj.mp h
      exact List.mem_map.mpr ⟨kv, List.mem_cons_self kv rest, rfl⟩
    · simp only [he, if_false] at h
      rw [List.map_cons]
      exact List.mem_cons_of_mem _ (ih h)

/-- The container phase only returns truthy values. -/
theorem findInContainers_truthy {kvs : List (String × Value)} {keys : List String}
    {v : Value} : ∀ {cs}, findInContainers kvs keys cs = some v → v.truthy = true := by
  intro cs
  induction cs with
  | nil => intro h; simp [findInContainers] at h
  | cons c cs ih =>
    intro h
    rw [findInContainers] at h
    cases hl : lookupKey kvs c with
    | none => simp only [hl] at h; exact ih h
    | some w =>
      simp only [hl] at h
      cases w with
      | dict inner =>
        cases hfa : findAlias inner keys with
        | none => simp only [hfa] at h; exact ih h
        | some r =>
          simp only [hfa] at h
          obtain rfl := Option.some_inj.mp h
          exact findAlias_truthy hfa
      | null => exact ih h
      | str s => exact ih h
      | num n => exact ih h
      | bool b => exact ih h
      | list xs => exact ih h

/-- A container-phase hit means some mapping value is itself a mapping
with a direct alias hit. -/
theorem findInContainers_child {kvs : List (String × Value)} {keys : List String}
    {v : Value} :
    ∀ {cs}, findInContainers kvs keys cs = some v →
      ∃ inner, (Value.dict inner) ∈ kvs.map Prod.snd ∧ hasDirectHit keys inner = true := by
  intro cs
  induction cs with
  | nil => intro h; simp [findInContainers] at h
  | cons c cs ih =>
    intro h
    rw [findInContainers] at h
    cases hl : lookupKey kvs c with
    | none => simp only [hl] at h; exact ih h
    | some w =>
      simp only [hl] at h
      cases w with
      | dict inner =>
        cases hfa : findAlias inner keys with
        | none => simp only [hfa] at h; exact ih h
        | some r =>
          refine ⟨inner, lookupKey_mem_snd hl, ?_⟩
          rw [← findAlias_isSome, hfa]
          rfl
      | null => exact ih h
      | str s => exact ih h
      | num n => exact ih h
      | bool b => exact ih h
      | list xs => exact ih h

/-- A hit below some mapping value is a hit of the whole child loop. -/
theorem anyHitKVs_of_mem {keys : List String} {w : Value} :
    ∀ {kvs : List (String × Value)}, w ∈ kvs.map Prod.snd → hasAliasHit keys w = true →
      anyHitKVs keys kvs = true := by
  intro kvs
  induction kvs with
  | nil => intro h; simp at h
  | cons kv rest ih =>
    intro hm hw
    obtain ⟨k0, v0⟩ := kv
    rw [List.map_cons] at hm
    rw [anyHitKVs]
    rcases List.mem_cons.mp hm with h1 | h2
    · have h1v : w = v0 := h1
      rw [← h1v, hw]
      simp
    · rw [ih h2 hw]
      simp

/-- The child loop over mapping values succeeds exactly when some value
contains a hit, and only returns truthy values — given that the same
holds for each child. -/
theorem searchKVs_char {keys : List String} :
    ∀ {kvs : List (String × Value)},
      (∀ w ∈ kvs.map Prod.snd,
        ((recursiveSearch w keys).isSome = hasAliasHit keys w) ∧
        (∀ r, recursiveSearch w keys = some r → r.truthy = true)) →
      ((searchKVs kvs keys).isSome = anyHitKVs keys kvs) ∧
      (∀ r, searchKVs kvs keys = some r → r.truthy = true) := by
  intro kvs
  induction kvs with
  | nil => intro _; simp [searchKVs, anyHitKVs]
  | cons kv rest ih =>
    intro h
    have hkv := h kv.2 (by simp)
    have hrest := ih (fun w hw => h w (by simp [hw]))
    rw [show searchKVs (kv :: rest) keys =
          (match recursiveSearch kv.2 keys with
           | some r => if r.truthy then some r else searchKVs rest keys
           | none => searchKVs rest keys) from by rw [show kv = (kv.1, kv.2) from rfl]; rfl]
    rw [show anyHitKVs keys (kv :: rest) = (hasAliasHit keys kv.2 || anyHitKVs keys rest)
          from by rw [show kv = (kv.1, kv.2) from rfl]; rfl]
    cases hr : recursiveSearch kv.2 keys with
    | none =>
      have : hasAliasHit keys kv.2 = false := by
        rw [← hkv.1, hr]; rfl
      simpa [this] using hrest
    | some r =>
      have ht : r.truthy = true := hkv.2 r hr
      have : hasAliasHit keys kv.2 = true := by rw [← hkv.1, hr]; rfl
      simp only [ht, if_true, this, Bool.true_or]
      exact ⟨rfl, fun r' hr' => by rw [← Option.some_inj.mp hr']; exact ht⟩

/-- The child loop over sequence elements, same characterization. -/
theorem searchList_char {keys : List String} :
    ∀ {xs : List Value},
      (∀ w ∈ xs,
        ((recursiveSearch w keys).isSome = hasAliasHit keys w) ∧
        (∀ r, recursiveSearch w keys = some r → r.truthy = true)) →
      ((searchList xs keys).isSome = anyHitList keys xs) ∧
      (∀ r, searchList xs keys = some r → r.truthy = true) := by
  intro xs
  induction xs with
  | nil => intro _; simp [searchList, anyHitList]
  | cons v rest ih =>
    intro h
    have hv := h v (by simp)
    have hrest := ih (fun w hw => h w (by simp [hw]))
    rw [searchList, anyHitList]
    cases hr : recursiveSearch v keys with
    | none =>
      have : hasAliasHit keys v = false := by rw [← hv.1, hr]; rfl
      simpa [this] using hrest
    | some r =>
      have ht : r.truthy = true := hv.2 r hr
      have : hasAliasHit keys v = true := by rw [← hv.1, hr]; rfl
      simp only [ht, if_true, this, Bool.true_or]
      exact ⟨rfl, fun r' hr' => by rw [← Option.some_inj.mp hr']; exact ht⟩

/-- Size-bounded form of the C8 characterization, for strong induction. -/
theorem recursiveSearch_char :
    ∀ (n : Nat) (v : Value), sizeOf v ≤ n → ∀ keys,
      ((recursiveSearch v keys).isSome = hasAliasHit keys v) ∧
      (∀ r, recursiveSearch v keys = some r → r.truthy = true) := by
  intro n
  induction n with
  | zero =>
    intro v h
    exfalso
    cases v <;> simp at h
  | succ n ih =>
    intro v hle keys
    cases v with
    | null => simp [recursiveSearch, hasAliasHit]
    | str s => simp [recursiveSearch, hasAliasHit]
    | num i => simp [recursiveSearch, hasAliasHit]
    | bool b => simp [recursiveSearch, hasAliasHit]
    | list xs =>
      have hchild : ∀ w ∈ xs,
          ((recursiveSearch w keys).isSome = hasAliasHit keys w) ∧
          (∀ r, recursiveSearch w keys = some r → r.truthy = true) := by
        intro w hw
        apply ih
        have h1 := List.sizeOf_lt_of_mem hw
        have h2 : sizeOf (Value.list xs) ≤ n + 1 := hle
        simp only [Value.list.sizeOf_spec] at h2
        omega
      have := searchList_char hchild
      simpa [recursiveSearch, hasAliasHit] using this
    | dict kvs =>
      have hchild : ∀ w ∈ kvs.map Prod.snd,
          ((recursiveSearch w keys).isSome = hasAliasHit keys w) ∧
          (∀ r, recursiveSearch w keys = some r → r.truthy = true) := by
        intro w hw
        apply ih
        rcases List.mem_map.mp hw with ⟨kv, hkv, rfl⟩
        have h1 := List.sizeOf_lt_of_mem hkv
        have h2 : sizeOf (Value.dict kvs) ≤ n + 1 := hle
        simp only [Value.dict.sizeOf_spec] at h2
        have h3 : sizeOf kv.2 < sizeOf kv := by
          obtain ⟨a, b⟩ := kv
          simp
        omega
      have hloop := searchKVs_char hchild
      rw [show recursiveSearch (Value.dict kvs) keys =
            (match findAlias kvs keys with
             | some v => some v
             | none =>
               match findInContainers kvs keys containerKeys with
               | some v => some v
               | none => searchKVs kvs keys) from rfl]
      rw [show hasAliasHit keys (Value.dict kvs) =
            (hasDirectHit keys kvs || anyHitKVs keys kvs) from rfl]
      cases hfa : findAlias kvs keys with
      | some v0 =>
        have hd : hasDirectHit keys kvs = true := by
          rw [← findAlias_isSome, hfa]; rfl
        simp only [hd, Bool.true_or]
        exact ⟨rfl, fun r hr => by
          rw [← Option.some_inj.mp hr]; exact findAlias_truthy hfa⟩
      | none =>
        have hd : hasDirectHit keys kvs = false := by
          rw [← findAlias_isSome, hfa]; rfl
        cases hfc : findInContainers kvs keys containerKeys with
        | some v0 =>
          rcases findInContainers_child hfc with ⟨inner, hmem, hdir⟩
          have hhit : hasAliasHit keys (Value.dict inner) = true := by
            rw [show hasAliasHit keys (Value.dict inner) =
                  (hasDirectHit keys inner || anyHitKVs keys inner) from rfl, hdir]
            simp
          have hany : anyHitKVs keys kvs = true := anyHitKVs_of_mem hmem hhit
          simp only [hd, hany, Bool.false_or]
          exact ⟨rfl, fun r hr => by
            rw [← Option.some_inj.mp hr]; exact findInContainers_truthy hfc⟩
        | none =>
          simp only [hd, Bool.false_or]
          exact hloop

/-- On the self-referential structure the graph search exhausts every
recursion budget. -/
theorem searchG_cyc_none : ∀ fuel, searchG cycGraph ["email"] fuel 0 = none := by
  intro fuel
  induction fuel with
  | zero => rfl
  | succ n ih =>
    show searchG cycGraph ["email"] (n + 1) 0 = none
    simp [searchG, cycGraph, findAliasN, findInContainersN, lookupKeyN, containerKeys,
      childRefs, goChildren, ih]

/-- Budget monotonicity of the child loop, given it for the child calls. -/
theorem goChildren_mono {g : Graph} {f1 f2 : Nat → Option (Option Nat)}
    (hf : ∀ m x, f1 m = some x → f2 m = some x) :
    ∀ {l : List Nat} {x}, goChildren g f1 l = some x → goChildren g f2 l = some x := by
  intro l
  induction l with
  | nil => intro x h; exact h
  | cons m ms ih =>
    intro x h
    rw [goChildren] at h ⊢
    cases h1 : f1 m with
    | none => rw [h1] at h; exact absurd h (by simp)
    | some o =>
      rw [hf m o h1]
      rw [h1] at h
      cases o with
      | none => exact ih h
      | some r =>
        by_cases ht : truthyN g r
        · simpa [ht] using h
        · simp only [ht, Bool.false_eq_true, if_false] at h ⊢
          exact ih h

/-- A converged graph search stays converged (with the same answer) on
one more unit of budget. -/
theorem searchG_mono_succ {g : Graph} {keys : List String} :
    ∀ (fuel : Nat) (n : Nat) (x : Option Nat),
      searchG g keys fuel n = some x → searchG g keys (fuel + 1) n = some x := by
  intro fuel
  induction fuel with
  | zero => intro n x h; exact absurd h (by simp [searchG])
  | succ f ih =>
    intro n x h
    rw [searchG] at h ⊢
    cases hg : g n with
    | scalar b => rw [hg] at h; exact h
    | arr l =>
      rw [hg] at h
      exact goChildren_mono (fun m y hy => ih m y hy) h
    | obj kvs =>
      rw [hg] at h
      cases hfa : findAliasN g kvs keys with
      | some m => simp only [hfa] at h ⊢; exact h
      | none =>
        simp only [hfa] at h ⊢
        cases hfc : findInContainersN g kvs keys containerKeys with
        | some m => simp only [hfc] at h ⊢; exact h
        | none =>
          simp only [hfc] at h ⊢
          exact goChildren_mono (fun m y hy => ih m y hy) h

/-- Budget monotonicity of the graph search. -/
theorem searchG_mono {g : Graph} {keys : List String} {fuel fuel' : Nat}
    (hle : fuel ≤ fuel') :
    ∀ {n x}, searchG g keys fuel n = some x → searchG g keys fuel' n = some x := by
  have haux : ∀ (d n : Nat) (x : Option Nat),
      searchG g keys fuel n = some x → searchG g keys (fuel + d) n = some x := by
    intro d
    induction d with
    | zero => intro n x h; exact h
    | succ d ih => intro n x h; exact searchG_mono_succ _ _ _ (ih n x h)
  intro n x h
  obtain ⟨d, rfl⟩ := Nat.exists_eq_add_of_le hle
  exact haux d n x h

/-- The child loop does not exhaust the budget if no child call does. -/
theorem goChildren_ne_none {g : Graph} {f : Nat → Option (Option Nat)} :
    ∀ {l : List Nat}, (∀ m ∈ l, f m ≠ none) → goChildren g f l ≠ none := by
  intro l
  induction l with
  | nil => intro _; simp [goChildren]
  | cons m ms ih =>
    intro h
    rw [goChildren]
    cases h1 : f m with
    | none => exact absurd h1 (h m (List.mem_cons_self m ms))
    | some o =>
      cases o with
      | none => exact ih (fun m' hm' => h m' (List.mem_cons_of_mem m hm'))
      | some r =>
        by_cases ht : truthyN g r
        · simp [ht]
        · simp only [ht, Bool.false_eq_true, if_false]
          exact ih (fun m' hm' => h m' (List.mem_cons_of_mem m hm'))

/-- On a graph with a rank function that strictly decreases along every
edge (every finite acyclic structure admits one), the search converges
within budget `rank + 1` at every node. -/
theorem searchG_terminates (g : Graph) (r : Nat → Nat)
    (hr : ∀ n m, m ∈ childRefs (g n) → r m < r n) :
    ∀ (n : Nat) (keys : List String), searchG g keys (r n + 1) n ≠ none := by
  suffices h : ∀ (k : Nat) (n : Nat), r n < k → ∀ keys, searchG g keys (r n + 1) n ≠ none by
    intro n keys
    exact h (r n + 1) n (Nat.lt_succ_self _) keys
  intro k
  induction k with
  | zero => intro n hn; omega
  | succ k ih =>
    intro n hn keys
    have hchild : ∀ m ∈ childRefs (g n), searchG g keys (r n) m ≠ none := by
      intro m hm
      have hlt := hr n m hm
      have h1 : searchG g keys (r m + 1) m ≠ none := ih m (by omega) keys
      cases h2 : searchG g keys (r m + 1) m with
      | none => exact absurd h2 h1
      | some x =>
        have := searchG_mono (by omega : r m + 1 ≤ r n) h2
        simp [this]
    rw [searchG]
    cases hg : g n with
    | scalar b => simp
    | arr l =>
      rw [hg] at hchild
      exact goChildren_ne_none hchild
    | obj kvs =>
      cases hfa : findAliasN g kvs keys with
      | some m => simp [hfa]
      | none =>
        cases hfc : findInContainersN g kvs keys containerKeys with
        | some m => simp [hfa, hfc]
        | none =>
          simp only [hfa, hfc]
          rw [hg] at hchild
          exact goChildren_ne_none hchild

/-- A `head?` element is a member. -/
theorem mem_of_head?_eq {α : Type} {l : List α} {a : α} (h : l.head? = some a) : a ∈ l := by
  cases l with
  | nil => simp at h
  | cons x xs =>
    simp only [List.head?_cons, Option.some_inj] at h
    rw [← h]
    exact List.mem_cons_self x xs

/-- Taking everything up to a suffix recovers the prefix. -/
theorem take_of_append (pre rest : List Char) :
    (pre ++ rest).take ((pre ++ rest).length - rest.length) = pre := by
  rw [List.length_append, Nat.add_sub_cancel]
  exact List.take_left pre rest

/-- `starIter` only moves characters from `rest` to `rev`, consuming
characters the star body can consume. -/
theorem starIter_consumes {f : Zip → List Zip} {ok : Char → Bool}
    (hf : ∀ z z1, z1 ∈ f z →
      ∃ pre, z.rest = pre ++ z1.rest ∧ z1.rev = pre.reverse ++ z.rev ∧
        ∀ c ∈ pre, ok c = true) :
    ∀ (n : Nat) (z z1 : Zip), z1 ∈ starIter f n z →
      ∃ pre, z.rest = pre ++ z1.rest ∧ z1.rev = pre.reverse ++ z.rev ∧
        ∀ c ∈ pre, ok c = true := by
  intro n
  induction n with
  | zero =>
    intro z z1 h
    rw [starIter] at h
    obtain rfl := List.mem_singleton.mp h
    exact ⟨[], by simp, by simp, by simp⟩
  | succ n ih =>
    intro z z1 h
    rw [starIter] at h
    rcases List.mem_append.mp h with h1 | h2
    · rcases List.mem_flatMap.mp h1 with ⟨z2, hz2, hrec⟩
      rcases hf z z2 (List.mem_filter.mp hz2).1 with ⟨p1, hr1, hv1, hok1⟩
      rcases ih z2 z1 hrec with ⟨p2, hr2, hv2, hok2⟩
      refine ⟨p1 ++ p2, ?_, ?_, ?_⟩
      · rw [hr1, hr2, List.append_assoc]
      · rw [hv2, hv1, List.reverse_append, List.append_assoc]
      · intro c hc
        rcases List.mem_append.mp hc with h | h
        · exact hok1 c h
        · exact hok2 c h
    · obtain rfl := List.mem_singleton.mp h2
      exact ⟨[], by simp, by simp, by simp⟩

/-- The matcher only moves characters from `rest` to `rev`, consuming
only characters some class of the pattern accepts. -/
theorem enum_consumes :
    ∀ (r : RE) (z z1 : Zip), z1 ∈ enum r z →
      ∃ pre, z.rest = pre ++ z1.rest ∧ z1.rev = pre.reverse ++ z.rev ∧
        ∀ c ∈ pre, charOK r c = true := by
  intro r
  induction r with
  | eps =>
    intro z z1 h
    simp only [enum] at h
    obtain rfl := List.mem_singleton.mp h
    exact ⟨[], by simp, by simp, by simp⟩
  | cls f =>
    intro z z1 h
    cases hz : z.rest with
    | nil => simp [enum, hz] at h
    | cons c cs =>
      simp only [enum, hz] at h
      by_cases hf : f c
      · simp only [hf, if_true] at h
        obtain rfl := List.mem_singleton.mp h
        refine ⟨[c], by simp [hz], by simp, ?_⟩
        intro c' hc'
        obtain rfl := List.mem_singleton.mp hc'
        simpa [charOK] using hf
      · simp [hf] at h
  | seq a b iha ihb =>
    intro z z1 h
    simp only [enum] at h
    rcases List.mem_flatMap.mp h with ⟨z2, hz2, hz1⟩
    rcases iha z z2 hz2 with ⟨p1, hr1, hv1, hok1⟩
    rcases ihb z2 z1 hz1 with ⟨p2, hr2, hv2, hok2⟩
    refine ⟨p1 ++ p2, by rw [hr1, hr2, List.append_assoc],
      by rw [hv2, hv1, List.reverse_append, List.append_assoc], ?_⟩
    intro c hc
    simp only [charOK, Bool.or_eq_true]
    rcases List.mem_append.mp hc with h | h
    · exact Or.inl (hok1 c h)
    · exact Or.inr (hok2 c h)
  | alt a b iha ihb =>
    intro z z1 h
    simp only [enum] at h
    rcases List.mem_append.mp h with h1 | h1
    · rcases iha z z1 h1 with ⟨p, hr, hv, hok⟩
      exact ⟨p, hr, hv, fun c hc => by
        simp only [charOK, Bool.or_eq_true]; exact Or.inl (hok c hc)⟩
    · rcases ihb z z1 h1 with ⟨p, hr, hv, hok⟩
      exact ⟨p, hr, hv, fun c hc => by
        simp only [charOK, Bool.or_eq_true]; exact Or.inr (hok c hc)⟩
  | opt a iha =>
    intro z z1 h
    simp only [enum] at h
    rcases List.mem_append.mp h with h1 | h2
    · rcases iha z z1 h1 with ⟨p, hr, hv, hok⟩
      exact ⟨p, hr, hv, fun c hc => by simpa [charOK] using hok c hc⟩
    · obtain rfl := List.mem_singleton.mp h2
      exact ⟨[], by simp, by simp, by simp⟩
  | star a iha =>
    intro z z1 h
    simp only [enum] at h
    rcases starIter_consumes (fun z' z1' hm => iha z' z1' hm) z.rest.length z z1 h with
      ⟨p, hr, hv, hok⟩
    exact ⟨p, hr, hv, fun c hc => by simpa [charOK] using hok c hc⟩
  | bnd =>
    intro z z1 h
    simp only [enum] at h
    by_cases hb : atBoundary z
    · simp only [hb, if_true] at h
      obtain rfl := List.mem_singleton.mp h
      exact ⟨[], by simp, by simp, by simp⟩
    · simp [hb] at h
  | eol =>
    intro z z1 h
    simp only [enum] at h
    by_cases hb : atEol z
    · simp only [hb, if_true] at h
      obtain rfl := List.mem_singleton.mp h
      exact ⟨[], by simp, by simp, by simp⟩
    · simp [hb] at h

/-- A successful position scan comes from a successful attempt. -/
theorem searchPositions_sound {r : RE} {text : List Char} :
    ∀ {ps : List Nat} {q : Nat} {m : List Char},
      searchPositions r text ps = some (q, m) → tryAt r text q = some m := by
  intro ps
  induction ps with
  | nil => intro q m h; simp [searchPositions] at h
  | cons p ps ih =>
    intro q m h
    rw [searchPositions] at h
    cases h1 : tryAt r text p with
    | some m' =>
      rw [h1] at h
      simp only [Option.some_inj, Prod.mk.injEq] at h
      obtain ⟨rfl, rfl⟩ := h
      exact h1
    | none =>
      rw [h1] at h
      exact ih h

/-- What a successful `re.search` guarantees: the result is a substring
of the input, all its characters pass some class of the pattern, and it
comes from a matcher run at some position. -/
theorem reSearch_sound {r : RE} {text s : List Char} (h : reSearch r text = some s) :
    (∃ pre post, pre ++ s ++ post = text) ∧
    (∀ c ∈ s, charOK r c = true) ∧
    (∃ p0 z1, z1 ∈ enum r (zipAt text p0) ∧ text.drop p0 = s ++ z1.rest) := by
  unfold reSearch at h
  cases hsp : searchPositions r text (List.range (text.length + 1)) with
  | none => rw [hsp] at h; simp at h
  | some pm =>
    rw [hsp] at h
    obtain ⟨p0, m⟩ := pm
    have hms : m = s := by simpa using h
    subst hms
    have hta := searchPositions_sound hsp
    unfold tryAt at hta
    cases hh : (enum r (zipAt text p0)).head? with
    | none => rw [hh] at hta; simp at hta
    | some z1 =>
      rw [hh] at hta
      have hta' : (text.drop p0).take ((text.drop p0).length - z1.rest.length) = m := by
        simpa using hta
      have hz1 : z1 ∈ enum r (zipAt text p0) := mem_of_head?_eq hh
      rcases enum_consumes r _ z1 hz1 with ⟨pre, hr, _, hok⟩
      have hrest : text.drop p0 = pre ++ z1.rest := hr
      have hs : m = pre := by
        rw [← hta', hrest]
        exact take_of_append pre z1.rest
      subst hs
      refine ⟨⟨text.take p0, z1.rest, ?_⟩, hok, p0, z1, hz1, hrest⟩
      rw [List.append_assoc, ← hrest, List.take_append_drop]

/-- A sequence match splits into a match of each part. -/
theorem seq_match_decomp {a b : RE} {z z1 : Zip} (h : z1 ∈ enum (.seq a b) z) :
    ∃ z2, z2 ∈ enum a z ∧ z1 ∈ enum b z2 := by
  simp only [enum] at h
  exact List.mem_flatMap.mp h

/-- A literal-character match consumes exactly that character. -/
theorem enum_litc {ch : Char} {z z1 : Zip} (h : z1 ∈ enum (litc ch) z) :
    ∃ cs, z.rest = ch :: cs ∧ z1 = ⟨ch :: z.rev, cs⟩ := by
  cases hz : z.rest with
  | nil => simp [litc, enum, hz] at h
  | cons c cs =>
    simp only [litc, enum, hz] at h
    cases hbe : (c == ch) with
    | false => simp [hbe] at h
    | true =>
      obtain rfl : c = ch := by simpa using hbe
      simp [hbe] at h
      exact ⟨cs, rfl, h⟩

/-- An optional-literal match consumes that character or nothing. -/
theorem enum_opt_litc {ch : Char} {z z1 : Zip} (h : z1 ∈ enum (.opt (litc ch)) z) :
    z1 = z ∨ ∃ cs, z.rest = ch :: cs ∧ z1 = ⟨ch :: z.rev, cs⟩ := by
  simp only [enum] at h
  rcases List.mem_append.mp h with h1 | h2
  · exact Or.inr (enum_litc h1)
  · exact Or.inl (List.mem_singleton.mp h2)

/-- On plus-free text the cleaning filter keeps exactly the digits. -/
theorem filter_cleanKeep_of_no_plus :
    ∀ {t : List Char}, (∀ c ∈ t, c ≠ '+') → t.filter cleanKeep = t.filter Char.isDigit := by
  intro t
  induction t with
  | nil => intro _; rfl
  | cons c cs ih =>
    intro h
    have hc : c ≠ '+' := h c (List.mem_cons_self c cs)
    have hck : cleanKeep c = c.isDigit := by
      unfold cleanKeep
      have hb : (c == '+') = false := by simpa using hc
      simp [hb]
    rw [List.filter_cons, List.filter_cons, hck,
      ih (fun c' hc' => h c' (List.mem_cons_of_mem c hc'))]

/-- On a plus-free candidate, the claim's digit count is the length of
the code's cleaned string. -/
theorem claimDigitCount_eq_of_no_plus {m : List Char} (h : ∀ c ∈ m, c ≠ '+') :
    claimDigitCount m = (m.filter cleanKeep).length := by
  cases m with
  | nil => rfl
  | cons c cs =>
    have hc : c ≠ '+' := h c (List.mem_cons_self c cs)
    rw [claimDigitCount, if_neg hc, filter_cleanKeep_of_no_plus h]
    simp

/-- On a candidate that is a plus followed by plus-free text, the claim's
digit count is again the length of the code's cleaned string. -/
theorem claimDigitCount_plus_cons {t : List Char} (h : ∀ c ∈ t, c ≠ '+') :
    claimDigitCount ('+' :: t) = (('+' :: t).filter cleanKeep).length := by
  have h1 : ('+' : Char).isDigit = false := by decide
  have h2 : cleanKeep '+' = true := by decide
  rw [claimDigitCount, if_pos rfl]
  simp [List.filter_cons, h1, h2, filter_cleanKeep_of_no_plus h]

/-- A character accepted by a pattern whose classes all reject the plus
sign is not a plus sign. -/
theorem charOK_ne_plus {p : RE} (hp : charOK p '+' = false) {c : Char}
    (hc : charOK p c = true) : c ≠ '+' := by
  intro heq
  rw [heq] at hc
  exact absurd hc (by simp [hp])

/-- For every match of one of the five phone patterns, the claim's digit
count coincides with the length of the code's cleaned string: the five
patterns admit a plus sign only as the leading character. -/
theorem phone_match_count {p : RE} (hp : p ∈ phonePatterns) {text s : List Char}
    (h : reSearch p text = some s) :
    claimDigitCount s = (s.filter cleanKeep).length := by
  rcases reSearch_sound h with ⟨_, hok, p0, z1, hz1, hdrop⟩
  simp only [phonePatterns, List.mem_cons, List.mem_singleton,
    List.not_mem_nil, or_false] at hp
  rcases hp with rfl | rfl | rfl | rfl | rfl
  · unfold phone1 at hz1
    rcases seq_match_decomp hz1 with ⟨z2, hz2, hz1b⟩
    rcases enum_consumes _ _ _ hz1b with ⟨p2, hr2, _, hok2⟩
    have hok2' : ∀ c ∈ p2, c ≠ '+' :=
      fun c hc => charOK_ne_plus (by decide) (hok2 c hc)
    rcases enum_opt_litc hz2 with rfl | ⟨cs, hzr, rfl⟩
    · have hs : s = p2 := by
        have hr2' : text.drop p0 = p2 ++ z1.rest := hr2
        exact List.append_cancel_right (hdrop.symm.trans hr2')
      rw [hs]
      exact claimDigitCount_eq_of_no_plus hok2'
    · have hcs : cs = p2 ++ z1.rest := hr2
      have hzr' : text.drop p0 = '+' :: cs := hzr
      have hdrop2 : text.drop p0 = ('+' :: p2) ++ z1.rest := by
        rw [hzr', hcs]
        rfl
      have hs : s = '+' :: p2 :=
        List.append_cancel_right (hdrop.symm.trans hdrop2)
      rw [hs]
      exact claimDigitCount_plus_cons hok2'
  · exact claimDigitCount_eq_of_no_plus
      (fun c hc => charOK_ne_plus (by decide) (hok c hc))
  · exact claimDigitCount_eq_of_no_plus
      (fun c hc => charOK_ne_plus (by decide) (hok c hc))
  · unfold phone4 at hz1
    rcases seq_match_decomp hz1 with ⟨z2, hz2, hz1b⟩
    rcases enum_litc hz2 with ⟨cs, hzr, rfl⟩
    rcases enum_consumes _ _ _ hz1b with ⟨p2, hr2, _, hok2⟩
    have hok2' : ∀ c ∈ p2, c ≠ '+' :=
      fun c hc => charOK_ne_plus (by decide) (hok2 c hc)
    have hcs : cs = p2 ++ z1.rest := hr2
    have hzr' : text.drop p0 = '+' :: cs := hzr
    have hdrop2 : text.drop p0 = ('+' :: p2) ++ z1.rest := by
      rw [hzr', hcs]
      rfl
    have hs : s = '+' :: p2 :=
      List.append_cancel_right (hdrop.symm.trans hdrop2)
    rw [hs]
    exact claimDigitCount_plus_cons hok2'
  · exact claimDigitCount_eq_of_no_plus
      (fun c hc => charOK_ne_plus (by decide) (hok c hc))

/-- What a successful `extract_phone` pattern loop guarantees. -/
theorem phoneLoop_sound :
    ∀ {ps : List RE} {text s : List Char}, phoneLoop ps text = some s →
      ∃ p ∈ ps, reSearch p text = some s ∧ 10 ≤ (s.filter cleanKeep).length := by
  intro ps
  induction ps with
  | nil => intro text s h; simp [phoneLoop] at h
  | cons p ps ih =>
    intro text s h
    rw [phoneLoop] at h
    cases h1 : reSearch p text with
    | none =>
      simp only [h1] at h
      rcases ih h with ⟨q, hq, h2⟩
      exact ⟨q, List.mem_cons_of_mem p hq, h2⟩
    | some m =>
      simp only [h1] at h
      by_cases hlen : 10 ≤ (m.filter cleanKeep).length
      · rw [if_pos hlen] at h
        obtain rfl := Option.some_inj.mp h
        exact ⟨p, List.mem_cons_self p ps, h1, hlen⟩
      · rw [if_neg hlen] at h
        rcases ih h with ⟨q, hq, h2⟩
        exact ⟨q, List.mem_cons_of_mem p hq, h2⟩

/-! ## Claim theorems -/

/-- C9: `extract_contact_info` is a total function of the input text —
absence of a field is the value `none` and absent skills are `[]`, never
an error (the embedding needs no error monad) — and on the empty string,
as well as on punctuation-only input, every field is absent and the
skills list is empty. -/
theorem C9_extract_contact_info_total :
    extract_contact_info "".toList =
      { full_name := none, email := none, phone := none, address := none,
        linkedin := none, skills := [] } ∧
    extract_contact_info "@#$%^&*()_+[]|\\:;<>?,./~".toList =
      { full_name := none, email := none, phone := none, address := none,
        linkedin := none, skills := [] } := by
  constructor
  · decide
  · decide

/-- C2: the skills-normalization split is on semicolon, comma, pipe, a
literal backslash and the letter `n` — not on newline: the raw-string
pattern `[;,|\x5c\x5cn]+` escapes the backslash, not the newline.  On the
located skills string `"Python"` the code returns `["Pytho"]` (split at
the letter `n`), where the specified comma/semicolon/pipe/newline split
keeps `["Python"]`; and a newline-separated string stays unsplit. -/
theorem C2_normalize_skills_split_bug :
    normalizeSkills (.str "Python".toList) = ["Pytho".toList] ∧
    normalizeSkills (.str "ab\ncd".toList) = ["ab\ncd".toList] := by
  constructor
  · rfl
  · rfl

/-- C1 (counterexample): the success response of `parse_resume` carries
the name field under the key `name`, not `full_name` — the claimed key
`full_name` does not occur among the response keys. -/
theorem C1_full_name_key_counterexample :
    "full_name" ∉ (buildResponse (contactDict (extract_contact_info "".toList))
        "resume.pdf".toList ".pdf".toList "text".toList).map Prod.fst ∧
    "name" ∈ (buildResponse (contactDict (extract_contact_info "".toList))
        "resume.pdf".toList ".pdf".toList "text".toList).map Prod.fst := by
  constructor
  · decide
  · decide

/-- C1 (amended): every success response uses exactly the keys `success`,
`file_path`, `file_type`, `text`, `name`, `email`, `phone`, `address`,
`linkedin`, `skills`, `text_length`, in this order: the six contact fields
appear as `name` (mapped from the internal `full_name`), `email`, `phone`,
`address`, `linkedin`, `skills`. -/
theorem C1_response_keys_amended :
    ∀ (ci : List (String × Value)) (fp ft text : List Char),
      (buildResponse ci fp ft text).map Prod.fst =
        ["success", "file_path", "file_type", "text", "name", "email", "phone",
         "address", "linkedin", "skills", "text_length"] := by
  intro ci fp ft text
  rfl

/-- C6 (counterexample): `extract_skills` also drops one-character tokens:
in `"Skills: C, Go"` the trimmed token `C` is non-empty and well under 50
characters, yet the result is `["Go"]`, not `["C", "Go"]`. -/
theorem C6_skills_counterexample :
    extract_skills "Skills: C, Go".toList = ["Go".toList] := by
  decide

/-- C6 (amended): every kept token has between 2 and 49 characters (the
filter also discards one-character tokens), the result is capped at 20
entries and is case-insensitively deduplicated preserving first-seen
order; `extract_skills "Skills: Python, python, Go"` is
`["Python", "Go"]`. -/
theorem C6_extract_skills_amended :
    (∀ text s, s ∈ extract_skills text → 2 ≤ s.length ∧ s.length ≤ 49) ∧
    (∀ text, (extract_skills text).length ≤ 20) ∧
    (∀ text, (extract_skills text).Pairwise (fun a b => lowerL a ≠ lowerL b)) ∧
    extract_skills "Skills: Python, python, Go".toList = ["Python".toList, "Go".toList] := by
  refine ⟨?_, ?_, ?_, by decide⟩
  · intro text s h
    have := extract_skills_mem_filter h
    simp only [Bool.and_eq_true, decide_eq_true_eq] at this
    omega
  · intro text
    unfold extract_skills
    exact List.length_take_le 20 _
  · intro text
    unfold extract_skills
    exact ((dedupCIAux_pairwise _ []).1).sublist (List.take_sublist 20 _)

/-- C6 (witness): the first conjunct of the amended claim applied at the
concrete input `"Skills: Java"` and token `"Java"`. -/
theorem C6_extract_skills_amended_witness :
    "Java".toList ∈ extract_skills "Skills: Java".toList ∧
    (2 ≤ "Java".toList.length ∧ "Java".toList.length ≤ 49) :=
  ⟨by decide, C6_extract_skills_amended.1 "Skills: Java".toList "Java".toList (by decide)⟩

/-- C10: every entry of `extract_skills` has length at least 2 —
one-character skill tokens are dropped by the `len(skill) > 1` filter. -/
theorem C10_skills_min_length :
    ∀ (text s : List Char), s ∈ extract_skills text → 2 ≤ s.length := by
  intro text s h
  have := extract_skills_mem_filter h
  simp only [Bool.and_eq_true, decide_eq_true_eq] at this
  omega

/-- C10 (witness): applied at the concrete input `"Skills: Python, Go"`
and its member token `"Python"`. -/
theorem C10_skills_min_length_witness :
    "Python".toList ∈ extract_skills "Skills: Python, Go".toList ∧
    2 ≤ "Python".toList.length :=
  ⟨by decide, C10_skills_min_length "Skills: Python, Go".toList "Python".toList (by decide)⟩

/-- C3: when a structured source is present but the structured
field-by-field lookup resolves no truthy field, the final contact record
is exactly the `extract_contact_info` result on the transcript text —
the structured attempt is discarded wholesale. -/
theorem C3_structured_empty_exact_fallback :
    ∀ (v : Value) (text : List Char),
      (ciOf (some v)).all (fun kv => !kv.2.truthy) = true →
      parseContact (some v) text = contactDict (extract_contact_info text) := by
  intro v text h
  have hany : (ciOf (some v)).any (fun kv => kv.2.truthy) = false := by
    rw [List.any_eq_false]
    intro kv hkv
    have := List.all_eq_true.mp h kv hkv
    simpa using this
  simp only [parseContact, hany, Bool.false_eq_true, if_false]

/-- C3 (witness): applied at a structured mapping with no truthy lookup
result and the concrete transcript `"a@b.io"`. -/
theorem C3_structured_empty_exact_fallback_witness :
    (ciOf (some (.dict [("x", .str [])]))).all (fun kv => !kv.2.truthy) = true ∧
    parseContact (some (.dict [("x", .str [])])) "a@b.io".toList =
      contactDict (extract_contact_info "a@b.io".toList) :=
  ⟨by decide,
   C3_structured_empty_exact_fallback (.dict [("x", .str [])]) "a@b.io".toList (by decide)⟩

/-- C4 (counterexample): a structured source whose transcript is empty
does not fall back to the document-derived transcript: with response
`{}` (an empty mapping), empty structured transcript, and document text
`"BODY"`, the selected transcript is the JSON serialization of the
response, not `"BODY"`. -/
theorem C4_transcript_counterexample :
    selectTranscript (some (Value.dict [], "".toList)) "BODY".toList ≠ "BODY".toList ∧
    selectTranscript (some (Value.dict [], "".toList)) "BODY".toList =
      jsonDumps (Value.dict []) := by
  have hjd : jsonDumps (Value.dict []) = [Char.ofNat 123, Char.ofNat 125] := by
    simp [jsonDumps, joinSep]
  constructor
  · rw [show selectTranscript (some (Value.dict [], "".toList)) "BODY".toList =
        jsonDumps (Value.dict []) from by
          simp [selectTranscript, jsonDumps_isEmpty_false], hjd]
    decide
  · simp [selectTranscript, jsonDumps_isEmpty_false]

/-- C4 (amended): with no structured source (or a failed structured call)
the document-derived transcript is used; with a structured source, a
non-empty structured transcript is used, and an empty one falls back to
the JSON serialization of the structured response — never to the
document-derived transcript, since the serialization is never empty. -/
theorem C4_transcript_selection_amended :
    ∀ (resp : Value) (t doc : List Char),
      selectTranscript none doc = doc ∧
      selectTranscript (some (resp, t)) doc = if t.isEmpty then jsonDumps resp else t := by
  intro resp t doc
  refine ⟨rfl, ?_⟩
  cases ht : t.isEmpty with
  | true => simp [selectTranscript, ht, jsonDumps_isEmpty_false]
  | false => simp [selectTranscript, ht]

/-- C8: on any finite acyclic structured object, the recursive field
locator succeeds exactly when a non-empty value sits under one of the
alias keys somewhere in the structure (directly at a mapping node, inside
a well-known container, or arbitrarily nested under mappings/sequences) —
so it returns absent only when no node satisfies an alias — and whatever
it returns is non-empty (truthy). -/
theorem C8_recursive_locator_finds_hits :
    ∀ (v : Value) (keys : List String),
      ((recursiveSearch v keys).isSome = hasAliasHit keys v) ∧
      (∀ r, recursiveSearch v keys = some r → r.truthy = true) :=
  fun v keys => recursiveSearch_char (sizeOf v) v (Nat.le_refl _) keys

/-- C8 (witness): applied at a structure with an `email` value nested
under a sequence inside an unrelated key, where the locator returns that
non-empty value. -/
theorem C8_recursive_locator_finds_hits_witness :
    recursiveSearch (.dict [("misc", .list [.dict [("email", .str "x@y.z".toList)]])])
      ["email", "emails"] = some (.str "x@y.z".toList) ∧
    (Value.str "x@y.z".toList).truthy = true :=
  ⟨rfl,
   (C8_recursive_locator_finds_hits
      (.dict [("misc", .list [.dict [("email", .str "x@y.z".toList)]])])
      ["email", "emails"]).2 _ rfl⟩

/-- C7 (counterexample): the recursive field locator has no
visited-node guard: on the self-referential mapping `obj = {"a": obj}`
the search exhausts every recursion budget — the recursion never returns,
for any budget — so it does not terminate on cyclic structures. -/
theorem C7_cycle_counterexample :
    ¬ ∃ (fuel : Nat) (r : Option Nat), searchG cycGraph ["email"] fuel 0 = some r := by
  rintro ⟨fuel, r, h⟩
  rw [searchG_cyc_none fuel] at h
  exact Option.noConfusion h

/-- C7 (amended): the locator terminates on every finite acyclic
structure — on any object graph with a rank that strictly decreases along
edges, the search converges within budget `rank + 1` — but on a cyclic
self-referential structure it recurses without bound, exhausting every
recursion budget. -/
theorem C7_locator_termination_amended :
    (∀ (g : Graph) (r : Nat → Nat),
      (∀ n m, m ∈ childRefs (g n) → r m < r n) →
      ∀ (n : Nat) (keys : List String), searchG g keys (r n + 1) n ≠ none) ∧
    (∀ fuel, searchG cycGraph ["email"] fuel 0 = none) :=
  ⟨searchG_terminates, searchG_cyc_none⟩

/-- C7 (witness): the termination half applied at the concrete acyclic
graph `treeGraph` with rank `treeRank`. -/
theorem C7_locator_termination_amended_witness :
    (∀ n m, m ∈ childRefs (treeGraph n) → treeRank m < treeRank n) ∧
    searchG treeGraph ["email"] (treeRank 0 + 1) 0 ≠ none := by
  have hr : ∀ n m, m ∈ childRefs (treeGraph n) → treeRank m < treeRank n := by
    intro n m hm
    cases n with
    | zero =>
      simp [treeGraph, childRefs] at hm
      subst hm
      decide
    | succ k => simp [treeGraph, childRefs] at hm
  exact ⟨hr, C7_locator_termination_amended.1 treeGraph treeRank hr 0 ["email"]⟩

/-- C5: whenever `extract_phone` returns a string, its digit count — with
at most a leading plus sign exempted from the ignoring, i.e. counted —
is at least 10, and the returned value is the original matched substring
of the input (candidates failing the count are skipped in favour of later
patterns, as the `phoneLoop` definition shows); and
`extract_phone "no number"` is absent. -/
theorem C5_extract_phone_digit_count :
    (∀ (text s : List Char), extract_phone text = some s →
      10 ≤ claimDigitCount s ∧ ∃ pre post, pre ++ s ++ post = text) ∧
    extract_phone "no number".toList = none := by
  constructor
  · intro text s h
    have h' : phoneLoop phonePatterns text = some s := h
    rcases phoneLoop_sound h' with ⟨p, hp, hsearch, hlen⟩
    constructor
    · rw [phone_match_count hp hsearch]
      exact hlen
    · exact (reSearch_sound hsearch).1
  · decide

/-- C5 (witness): applied at `"Call (555) 123-4567"`, whose accepted
candidate is the original substring `"(555) 123-4567"` with 10 digits. -/
theorem C5_extract_phone_digit_count_witness :
    extract_phone "Call (555) 123-4567".toList = some "(555) 123-4567".toList ∧
    (10 ≤ claimDigitCount "(555) 123-4567".toList ∧
      ∃ pre post, pre ++ "(555) 123-4567".toList ++ post = "Call (555) 123-4567".toList) :=
  ⟨by decide,
   C5_extract_phone_digit_count.1 "Call (555) 123-4567".toList "(555) 123-4567".toList
     (by decide)⟩

end PrecisionCRM
